import Mathlib

/-!
Verification of the Keepers download engine (`src/main.rs`).

The definitions below are a shallow embedding of the engine's pure core:
chunk-count policy, range partitioning, mode selection, journal
save/load with crash points, retry loop, the segment fetch loop, the
cancellation paths, startup reconciliation and the journal record
operations. Machine integers (`u64`, `u32`) are modelled as `Nat`; the
arithmetic involved (sizes, divisions, indices) never wraps in the
source's domain.
-/

namespace Keepers

/-- `DEFAULT_NUM_CHUNKS` from src/main.rs. -/
def DEFAULT_NUM_CHUNKS : Nat := 4

/-- `MIN_CHUNK_SIZE` from src/main.rs (1 MiB). -/
def MIN_CHUNK_SIZE : Nat := 1024 * 1024

/-- `MAX_RETRIES` from src/main.rs. -/
def MAX_RETRIES : Nat := 3

/-- `RETRY_DELAY_SECS` from src/main.rs. -/
def RETRY_DELAY_SECS : Nat := 2

/-- `calculate_optimal_chunks` from src/main.rs: suggested count by size
bracket, capped by `file_size / MIN_CHUNK_SIZE` floored at 1. -/
def calculate_optimal_chunks (file_size : Nat) : Nat :=
  let max_chunks_by_size := file_size / MIN_CHUNK_SIZE
  let suggested_chunks :=
    if file_size < 10 * 1024 * 1024 then 2
    else if file_size < 100 * 1024 * 1024 then DEFAULT_NUM_CHUNKS
    else if file_size < 1024 * 1024 * 1024 then 6
    else 8
  min suggested_chunks (max max_chunks_by_size 1)

/-- The spec's chunk policy, written from §4.4 of the spec: 2 for
sizes below 10 MiB, 4 below 100 MiB, 6 below 1 GiB, 8 otherwise,
capped at `total_bytes / 1 MiB` and floored at 1 (the floor is the
spec's own "at least 1"). -/
def spec_chunk_policy (file_size : Nat) : Nat :=
  let suggested :=
    if file_size < 10 * 1024 * 1024 then 2
    else if file_size < 100 * 1024 * 1024 then 4
    else if file_size < 1024 * 1024 * 1024 then 6
    else 8
  max (min suggested (file_size / (1024 * 1024))) 1

/-- Mode selection condition from `start_download` (line 2674):
sequential iff `!supports_range || total_size == 0 ||
total_size < 1024*1024 || is_resume`. -/
def sequential_mode (supports_range : Bool) (total_size : Nat) (is_resume : Bool) : Bool :=
  !supports_range || total_size == 0 || decide (total_size < 1024 * 1024) || is_resume

/-- One byte range of the parallel partition in `start_download`
(lines 2724-2730): `start = chunk_id * chunk_size`, last chunk takes
`last_chunk_size = total_size - chunk_size * (num_chunks - 1)`. -/
def chunk_range (total_size num_chunks chunk_size chunk_id : Nat) : Nat × Nat :=
  (chunk_id * chunk_size,
    if chunk_id = num_chunks - 1 then
      chunk_id * chunk_size + (total_size - chunk_size * (num_chunks - 1)) - 1
    else
      chunk_id * chunk_size + chunk_size - 1)

/-- All byte ranges produced by the partitioning in `start_download`
(`num_chunks = calculate_optimal_chunks total_size`,
`chunk_size = total_size / num_chunks`). -/
def chunk_ranges (total_size : Nat) : List (Nat × Nat) :=
  (List.range (calculate_optimal_chunks total_size)).map
    (chunk_range total_size (calculate_optimal_chunks total_size)
      (total_size / calculate_optimal_chunks total_size))

/-- `DownloadStatus` from src/main.rs. -/
inductive DownloadStatus
  | InProgress
  | Completed
  | Failed
  | Cancelled
deriving DecidableEq, Repr

/-- `DownloadRecord` from src/main.rs. `DateTime<Utc>` timestamps are
modelled as `Nat` instants. -/
structure DownloadRecord where
  url : String
  filename : String
  file_path : Option String
  status : DownloadStatus
  date_added : Nat
  date_completed : Option Nat
  downloaded_bytes : Nat
  total_bytes : Nat
  was_paused : Bool
deriving DecidableEq, Repr

/-- Contents of `downloads.json` (or its `.tmp` sibling) as serde sees
them: a valid serialization of a record list, or bytes that fail to
parse (this includes a half-written file). -/
inductive FileContent
  | good : List DownloadRecord → FileContent
  | corrupt : FileContent
deriving DecidableEq

/-- The slice of the filesystem that the journal code touches:
`downloads.json` and its sibling `downloads.json.tmp` (each possibly
absent). -/
structure JournalFS where
  main : Option FileContent
  tmp : Option FileContent
deriving DecidableEq

/-- `load_downloads` from src/main.rs: empty list when the file is
absent; otherwise parse, falling back to the empty list on a parse
failure (`unwrap_or_else(|_| Vec::new())`). The `.tmp` sibling is
never read. -/
def load_downloads (fs : JournalFS) : List DownloadRecord :=
  match fs.main with
  | none => []
  | some (FileContent.good records) => records
  | some FileContent.corrupt => []

/-- The observable stopping points of `save_downloads`: the process can
be killed before the temp write, in the middle of it (leaving a
half-written `.tmp`), after it but before the rename, or the rename
itself can fail (the code then removes the `.tmp`), or the whole save
completes. -/
inductive SavePoint
  | before_tmp_write
  | mid_tmp_write
  | after_tmp_write
  | rename_failed
  | completed

/-- `save_downloads` from src/main.rs, as the filesystem state reached
at each stopping point: serialize, write `downloads.json.tmp`, rename
it over `downloads.json` (removing `.tmp` if the rename fails). -/
def save_downloads (fs : JournalFS) (records : List DownloadRecord) : SavePoint → JournalFS
  | SavePoint.before_tmp_write => fs
  | SavePoint.mid_tmp_write => { fs with tmp := some FileContent.corrupt }
  | SavePoint.after_tmp_write => { fs with tmp := some (FileContent.good records) }
  | SavePoint.rename_failed => { fs with tmp := none }
  | SavePoint.completed => { main := some (FileContent.good records), tmp := none }

/-- `StatusCode::is_success` from the http crate: any 2xx status. -/
def status_is_success (status : Nat) : Bool :=
  decide (200 ≤ status) && decide (status < 300)

/-- The status test shared by `download_chunk` (line 2835) and
`download_sequential` (line 2973): the response is rejected iff
`!status.is_success() && status != 206`. -/
def status_rejected (status : Nat) : Bool :=
  !status_is_success status && status != 206

/-- An HTTP response to the HEAD probe: status plus the two headers
`start_download` reads. -/
structure HeadResponse where
  status : Nat
  content_length : Option Nat
  accept_ranges : Option String

/-- The HEAD probe extraction in `start_download` (lines 2637-2657):
`total_size` from `Content-Length` (0 if absent or unparsable) and
`supports_range` from `Accept-Ranges == "bytes"`. The response status
is never inspected. -/
def probe_head (resp : HeadResponse) : Nat × Bool :=
  (resp.content_length.getD 0, resp.accept_ranges == some "bytes")

/-- One item yielded by `bytes_stream()`: a chunk of bytes (bytes as
`Nat`) or a mid-stream error. -/
abbrev StreamItem := Except String (List Nat)

/-- The stream loop of `download_chunk` (lines 2842-2922). `gate k` is
the value of the task's `cancelled` flag observed at iteration `k`'s
cooperative check (after any pause waiting, which only delays). Writes
are recorded as `(offset, bytes)` pairs in the order the code issues
its seek+write pairs; the returned `Nat` is the final `current_pos`.
Progress bookkeeping (a UI concern) is not modelled. -/
def chunk_loop (gate : Nat → Bool) :
    List StreamItem → Nat → Nat → List (Nat × List Nat) →
    Except String (List (Nat × List Nat) × Nat)
  | [], _, pos, writes => Except.ok (writes, pos)
  | item :: rest, k, pos, writes =>
    if gate k then Except.error "Cancelado"
    else
      match item with
      | Except.error e => Except.error ("Erro ao baixar chunk: " ++ e)
      | Except.ok chunk =>
        chunk_loop gate rest (k + 1) (pos + chunk.length) (writes ++ [(pos, chunk)])

/-- `download_chunk` from src/main.rs over one segment starting at
`start`: reject the response status, then stream, gate, seek and
write. -/
def download_chunk (status : Nat) (start : Nat) (stream : List StreamItem)
    (gate : Nat → Bool) : Except String (List (Nat × List Nat) × Nat) :=
  if status_rejected status then Except.error ("Status HTTP: " ++ toString status)
  else chunk_loop gate stream 0 start []

/-- Total number of bytes carried by the `ok` items of a stream. -/
def stream_bytes : List StreamItem → Nat
  | [] => 0
  | Except.ok chunk :: rest => chunk.length + stream_bytes rest
  | Except.error _ :: rest => stream_bytes rest

/-- The multiset of absolute file offsets covered by a list of
`(offset, bytes)` writes, in write order. -/
def write_offsets : List (Nat × List Nat) → List Nat
  | [] => []
  | (off, data) :: rest => List.range' off data.length ++ write_offsets rest

/-- A `reqwest::Error` as `is_recoverable_error` sees it: the three
classification predicates it consults. -/
structure ReqError where
  is_timeout : Bool
  is_connect : Bool
  is_request : Bool
deriving DecidableEq, Repr

/-- `is_recoverable_error` from src/main.rs (line 3188). -/
def is_recoverable_error (e : ReqError) : Bool :=
  e.is_timeout || e.is_connect || e.is_request

/-- Observable outcome of `retry_request`: the returned result, the
number of calls made to `request_fn`, and the list of back-off sleep
durations (in seconds) performed, in order. -/
structure RetryResult (T : Type) where
  result : Except ReqError T
  attempts : Nat
  sleeps : List Nat

/-- The loop of `retry_request` (lines 3200-3230). `outcomes k` is the
result of the `k`-th call of `request_fn`; `attempt` is both the loop
counter and the number of calls already made; the first argument is
`max_retries - attempt` (the remaining loop iterations), so the sleep
guard `attempt < max_retries - 1` is `0 < remaining` after the match.
The trailing base case is the `last_error` match after the loop, whose
`None` arm performs one extra call. -/
def retry_request_aux {T : Type} (outcomes : Nat → Except ReqError T)
    (delay_secs : Nat) :
    Nat → Nat → List Nat → Option ReqError → RetryResult T
  | 0, attempt, sleeps, last_error =>
    match last_error with
    | some e => ⟨Except.error e, attempt, sleeps⟩
    | none => ⟨outcomes attempt, attempt + 1, sleeps⟩
  | remaining + 1, attempt, sleeps, _ =>
    match outcomes attempt with
    | Except.ok v => ⟨Except.ok v, attempt + 1, sleeps⟩
    | Except.error e =>
      if is_recoverable_error e then
        retry_request_aux outcomes delay_secs remaining (attempt + 1)
          (if 0 < remaining then sleeps ++ [delay_secs * 2 ^ attempt] else sleeps)
          (some e)
      else ⟨Except.error e, attempt + 1, sleeps⟩

/-- `retry_request` from src/main.rs. -/
def retry_request {T : Type} (outcomes : Nat → Except ReqError T)
    (max_retries delay_secs : Nat) : RetryResult T :=
  retry_request_aux outcomes delay_secs max_retries 0 [] none

/-- An event sent on the download's channel (`DownloadMessage`);
progress payloads are not modelled. -/
inductive DMsg
  | progress
  | error : String → DMsg
  | complete
deriving DecidableEq, Repr

/-- Outcome of a download run: whether the `.part` file is still on
disk, whether it was renamed to the final name, and the terminal
messages sent. -/
structure RunOutcome where
  part_exists : Bool
  renamed : Bool
  msgs : List DMsg
deriving DecidableEq, Repr

/-- The stream loop of `download_sequential` (lines 2990-3058) and its
epilogue: on an observed cancellation the `.part` is deleted and
`Error("Cancelado")` is sent; on a stream error the `.part` is kept;
when the stream ends the `.part` is renamed and `Complete` is sent.
`gate k` is the `cancelled` flag observed at iteration `k`'s check;
local write errors and throttled progress messages are not
modelled. -/
def seq_loop (gate : Nat → Bool) : List StreamItem → Nat → RunOutcome
  | [], _ => ⟨false, true, [DMsg.complete]⟩
  | item :: rest, k =>
    if gate k then ⟨false, false, [DMsg.error "Cancelado"]⟩
    else
      match item with
      | Except.error e => ⟨true, false, [DMsg.error ("Erro ao baixar: " ++ e)]⟩
      | Except.ok _ => seq_loop gate rest (k + 1)

/-- `download_sequential` from src/main.rs: status check then stream
loop. On a rejected status the already-created `.part` is kept. -/
def download_sequential_run (status : Nat) (stream : List StreamItem)
    (gate : Nat → Bool) : RunOutcome :=
  if status_rejected status then ⟨true, false, [DMsg.error ("Status HTTP: " ++ toString status)]⟩
  else seq_loop gate stream 0

/-- The tail of `start_download`'s parallel path after all workers were
joined (lines 2779-2804): re-check `cancelled` (delete `.part`,
surface `Cancelado`), else fail if any worker failed (keeping the
`.part`), else rename and send `Complete`. `worker_ok` lists each
worker's success flag. -/
def parallel_finish (cancelled : Bool) (worker_ok : List Bool) : RunOutcome :=
  if cancelled then ⟨false, false, [DMsg.error "Cancelado"]⟩
  else if !worker_ok.all id then ⟨true, false, [DMsg.error "Erro ao baixar chunks"]⟩
  else ⟨false, true, [DMsg.complete]⟩

/-- The task's `cancelled` flag as observed over discrete instants:
absent, or set at instant `t0` and monotone true thereafter. -/
def cancel_flag (t : Option Nat) (k : Nat) : Bool :=
  match t with
  | none => false
  | some t0 => decide (t0 ≤ k)

/-- The auto-resume test of the startup reconciliation in `build_ui`
(line 468): `status == InProgress && !was_paused`. -/
def auto_resume_record (r : DownloadRecord) : Bool :=
  r.status == DownloadStatus.InProgress && !r.was_paused

/-- The URLs collected into `to_resume` by the reconciliation loop. -/
def reconcile_to_resume (saved : List DownloadRecord) : List String :=
  (saved.filter auto_resume_record).map (fun r => r.url)

/-- The records surfaced as passive rows by the reconciliation loop
(the `else` branch calling `add_completed_download`). -/
def reconcile_passive (saved : List DownloadRecord) : List DownloadRecord :=
  saved.filter (fun r => !auto_resume_record r)

/-- The journal contents after the reconciliation's
`records.retain(|r| &r.url != url)` loop over `to_resume`. -/
def reconcile_remaining (saved : List DownloadRecord) : List DownloadRecord :=
  saved.filter (fun r => !(reconcile_to_resume saved).contains r.url)

/-- The in-place update `add_download` applies to an existing record
with the same URL (lines 1869-1872). -/
def update_existing_record (r : DownloadRecord) : DownloadRecord :=
  { r with status := DownloadStatus.InProgress, date_completed := none, was_paused := false }

/-- The record-list mutation of `add_download` (lines 1866-1878):
update the first record with the new record's URL in place, or push
the new record at the end. -/
def add_download_records : List DownloadRecord → DownloadRecord → List DownloadRecord
  | [], initial => [initial]
  | r :: rest, initial =>
    if r.url = initial.url then update_existing_record r :: rest
    else r :: add_download_records rest initial

/-- The delete handler's `records.retain(|r| r.url != record_url)`
(line 2566). -/
def delete_record (records : List DownloadRecord) (url : String) : List DownloadRecord :=
  records.filter (fun r => r.url ≠ url)

theorem calculate_optimal_chunks_pos (file_size : Nat) :
    1 ≤ calculate_optimal_chunks file_size := by
  simp only [calculate_optimal_chunks, DEFAULT_NUM_CHUNKS, MIN_CHUNK_SIZE]
  split_ifs <;> omega

theorem calculate_optimal_chunks_le_eight (file_size : Nat) :
    calculate_optimal_chunks file_size ≤ 8 := by
  simp only [calculate_optimal_chunks, DEFAULT_NUM_CHUNKS, MIN_CHUNK_SIZE]
  split_ifs <;> omega

theorem calculate_optimal_chunks_le_div (file_size : Nat)
    (h : MIN_CHUNK_SIZE ≤ file_size) :
    calculate_optimal_chunks file_size ≤ file_size / MIN_CHUNK_SIZE := by
  simp only [MIN_CHUNK_SIZE] at h
  simp only [calculate_optimal_chunks, DEFAULT_NUM_CHUNKS, MIN_CHUNK_SIZE]
  split_ifs <;> omega

/-- C3: `calculate_optimal_chunks` agrees with the spec's chunk policy
everywhere, is at least 1, and for sizes of at least 1 MiB is at most
`file_size / 1 MiB`. -/
theorem calculate_optimal_chunks_spec :
    ∀ file_size : Nat,
      calculate_optimal_chunks file_size = spec_chunk_policy file_size ∧
      1 ≤ calculate_optimal_chunks file_size ∧
      (MIN_CHUNK_SIZE ≤ file_size →
        calculate_optimal_chunks file_size ≤ file_size / MIN_CHUNK_SIZE) := by
  intro file_size
  simp only [calculate_optimal_chunks, spec_chunk_policy, DEFAULT_NUM_CHUNKS, MIN_CHUNK_SIZE]
  split_ifs <;> omega

/-- Witness for C3 at a concrete size (40 MiB). -/
theorem calculate_optimal_chunks_spec_witness :
    calculate_optimal_chunks 41943040 = spec_chunk_policy 41943040 ∧
    calculate_optimal_chunks 41943040 ≤ 41943040 / MIN_CHUNK_SIZE :=
  ⟨(calculate_optimal_chunks_spec 41943040).1,
   (calculate_optimal_chunks_spec 41943040).2.2 (by norm_num [MIN_CHUNK_SIZE])⟩

theorem chunk_range_last_snd (t n cs : Nat) (hmul : cs * n ≤ t) :
    (chunk_range t n cs (n - 1)).2 = t - 1 := by
  have h1 : cs * (n - 1) ≤ cs * n := Nat.mul_le_mul_left cs (Nat.sub_le n 1)
  have h2 : (n - 1) * cs = cs * (n - 1) := Nat.mul_comm _ _
  simp only [chunk_range, if_pos, if_true]
  omega

theorem chunk_range_snd_le (t n cs i : Nat) (hmul : cs * n ≤ t) (hi : i < n) :
    (chunk_range t n cs i).2 ≤ t - 1 := by
  by_cases hlast : i = n - 1
  · rw [hlast, chunk_range_last_snd t n cs hmul]
  · simp only [chunk_range]
    rw [if_neg hlast]
    have e1 : (i + 1) * cs = i * cs + cs := Nat.succ_mul i cs
    have e2 : (i + 1) * cs ≤ n * cs := Nat.mul_le_mul_right cs (by omega)
    have e3 : n * cs = cs * n := Nat.mul_comm _ _
    omega

theorem chunk_range_disjoint_lt (t n cs i j : Nat) (hcs : 1 ≤ cs)
    (hij : i < j) (hj : j < n) :
    (chunk_range t n cs i).2 < (chunk_range t n cs j).1 := by
  have hi_ne : ¬ i = n - 1 := by omega
  simp only [chunk_range]
  rw [if_neg hi_ne]
  have e1 : (i + 1) * cs = i * cs + cs := Nat.succ_mul i cs
  have e2 : (i + 1) * cs ≤ j * cs := Nat.mul_le_mul_right cs (by omega)
  omega

/-- C1: for any `total_size` of at least 1 MiB, the byte ranges of the
parallel partition are pairwise disjoint and their union is exactly
`[0, total_size - 1]`. -/
theorem chunk_ranges_partition (total_size : Nat) (h : MIN_CHUNK_SIZE ≤ total_size) :
    List.Pairwise (fun r s : Nat × Nat => r.2 < s.1 ∨ s.2 < r.1) (chunk_ranges total_size) ∧
    ∀ b : Nat, b < total_size ↔ ∃ r ∈ chunk_ranges total_size, r.1 ≤ b ∧ b ≤ r.2 := by
  have ht : 1024 * 1024 ≤ total_size := by simpa [MIN_CHUNK_SIZE] using h
  have hn1 : 1 ≤ calculate_optimal_chunks total_size := calculate_optimal_chunks_pos _
  have hn8 : calculate_optimal_chunks total_size ≤ 8 := calculate_optimal_chunks_le_eight _
  set n := calculate_optimal_chunks total_size with hn
  set cs := total_size / n with hcs_def
  have hnt : n ≤ total_size := by omega
  have hcs : 1 ≤ cs := (Nat.one_le_div_iff (by omega)).mpr hnt
  have hmul : cs * n ≤ total_size := Nat.div_mul_le_self total_size n
  constructor
  · rw [chunk_ranges, List.pairwise_map, List.pairwise_iff_getElem]
    intro i j hi hj hij
    simp only [List.length_range] at hi hj
    simp only [List.getElem_range]
    exact Or.inl (chunk_range_disjoint_lt total_size n cs i j hcs hij hj)
  · intro b
    constructor
    · intro hb
      by_cases hk : b / cs < n - 1
      · refine ⟨chunk_range total_size n cs (b / cs),
          List.mem_map_of_mem _ (List.mem_range.mpr (by omega)), ?_, ?_⟩
        · exact Nat.div_mul_le_self b cs
        · simp only [chunk_range]
          rw [if_neg (by omega)]
          have e1 : cs * (b / cs) + b % cs = b := Nat.div_add_mod b cs
          have e2 : b % cs < cs := Nat.mod_lt b (by omega)
          have e3 : (b / cs) * cs = cs * (b / cs) := Nat.mul_comm _ _
          omega
      · refine ⟨chunk_range total_size n cs (n - 1),
          List.mem_map_of_mem _ (List.mem_range.mpr (by omega)), ?_, ?_⟩
        · show (n - 1) * cs ≤ b
          calc (n - 1) * cs ≤ (b / cs) * cs := Nat.mul_le_mul_right cs (by omega)
            _ ≤ b := Nat.div_mul_le_self b cs
        · rw [chunk_range_last_snd total_size n cs hmul]
          omega
    · rintro ⟨r, hr, hrb1, hrb2⟩
      rw [chunk_ranges, ← hn] at hr
      rw [← hcs_def] at hr
      obtain ⟨i, hi, rfl⟩ := List.mem_map.mp hr
      have hi' : i < n := List.mem_range.mp hi
      have := chunk_range_snd_le total_size n cs i hmul hi'
      omega

/-- Witness for C1 at `total_size = 40 MiB`, byte 12345678. -/
theorem chunk_ranges_partition_witness :
    ∃ r ∈ chunk_ranges 41943040, r.1 ≤ 12345678 ∧ 12345678 ≤ r.2 :=
  ((chunk_ranges_partition 41943040 (by norm_num [MIN_CHUNK_SIZE])).2 12345678).mp
    (by norm_num)

/-- C2: mode selection is the pure function `sequential_mode` of the
three probe results, and it picks sequential exactly when
`!supports_range`, `total_size = 0`, `total_size < 1 MiB` or a `.part`
file already exists. -/
theorem sequential_mode_iff :
    ∀ (supports_range : Bool) (total_size : Nat) (is_resume : Bool),
      sequential_mode supports_range total_size is_resume = true ↔
        (supports_range = false ∨ total_size = 0 ∨
          total_size < 1024 * 1024 ∨ is_resume = true) := by
  intro s t r
  simp [sequential_mode]
  tauto

/-- C4: the journal is updated atomically: at every stopping point of
`save_downloads` a subsequent `load_downloads` yields either the
previously committed list or the new list, never a partially-written
one; a load from an absent or unparsable file yields the empty list;
and a completed save commits the new list. -/
theorem journal_atomic :
    ∀ (fs : JournalFS) (records : List DownloadRecord) (p : SavePoint),
      (load_downloads (save_downloads fs records p) = load_downloads fs ∨
        load_downloads (save_downloads fs records p) = records) ∧
      (∀ t, load_downloads ⟨none, t⟩ = [] ∧
        load_downloads ⟨some FileContent.corrupt, t⟩ = []) ∧
      load_downloads (save_downloads fs records SavePoint.completed) = records := by
  intro fs records p
  refine ⟨?_, fun t => ⟨rfl, rfl⟩, rfl⟩
  cases p
  · exact Or.inl rfl
  · exact Or.inl rfl
  · exact Or.inl rfl
  · exact Or.inl rfl
  · exact Or.inr rfl

/-- C5: `retry_request` with the source's constants makes at most 3
attempts; its back-off sleeps are 2·2^k seconds before the k-th retry
(so 2 s, then 4 s); and a non-recoverable error is returned at once
with no further attempt. -/
theorem retry_request_spec :
    ∀ (T : Type) (outcomes : Nat → Except ReqError T),
      (retry_request outcomes MAX_RETRIES RETRY_DELAY_SECS).attempts ≤ 3 ∧
      (retry_request outcomes MAX_RETRIES RETRY_DELAY_SECS).sleeps =
        List.take ((retry_request outcomes MAX_RETRIES RETRY_DELAY_SECS).attempts - 1) [2, 4] ∧
      (∀ k, k < 3 →
        (∀ j, j < k → ∃ ej, outcomes j = Except.error ej ∧ is_recoverable_error ej = true) →
        ∀ e, outcomes k = Except.error e → is_recoverable_error e = false →
          (retry_request outcomes MAX_RETRIES RETRY_DELAY_SECS).result = Except.error e ∧
          (retry_request outcomes MAX_RETRIES RETRY_DELAY_SECS).attempts = k + 1) := by
  intro T outcomes
  cases ho0 : outcomes 0 with
  | ok v0 =>
    have hR : retry_request outcomes MAX_RETRIES RETRY_DELAY_SECS = ⟨Except.ok v0, 1, []⟩ := by
      simp [retry_request, retry_request_aux, MAX_RETRIES, RETRY_DELAY_SECS, ho0]
    rw [hR]
    refine ⟨by norm_num, by simp, ?_⟩
    intro k hk hprev e he hrec
    exfalso
    rcases Nat.eq_zero_or_pos k with rfl | hkpos
    · rw [ho0] at he; exact Except.noConfusion he
    · obtain ⟨ej, hej, _⟩ := hprev 0 hkpos
      rw [ho0] at hej; exact Except.noConfusion hej
  | error e0 =>
    by_cases hr0 : is_recoverable_error e0
    · cases ho1 : outcomes 1 with
      | ok v1 =>
        have hR : retry_request outcomes MAX_RETRIES RETRY_DELAY_SECS =
            ⟨Except.ok v1, 2, [2]⟩ := by
          simp [retry_request, retry_request_aux, MAX_RETRIES, RETRY_DELAY_SECS, ho0, hr0, ho1]
        rw [hR]
        refine ⟨by norm_num, by simp, ?_⟩
        intro k hk hprev e he hrec
        exfalso
        interval_cases k
        · rw [ho0] at he
          obtain rfl : e0 = e := Except.error.inj he
          rw [hr0] at hrec; exact Bool.noConfusion hrec
        · rw [ho1] at he; exact Except.noConfusion he
        · obtain ⟨ej, hej, _⟩ := hprev 1 (by omega)
          rw [ho1] at hej; exact Except.noConfusion hej
      | error e1 =>
        by_cases hr1 : is_recoverable_error e1
        · cases ho2 : outcomes 2 with
          | ok v2 =>
            have hR : retry_request outcomes MAX_RETRIES RETRY_DELAY_SECS =
                ⟨Except.ok v2, 3, [2, 4]⟩ := by
              simp [retry_request, retry_request_aux, MAX_RETRIES, RETRY_DELAY_SECS,
                ho0, hr0, ho1, hr1, ho2]
            rw [hR]
            refine ⟨by norm_num, by simp, ?_⟩
            intro k hk hprev e he hrec
            exfalso
            interval_cases k
            · rw [ho0] at he
              obtain rfl : e0 = e := Except.error.inj he
              rw [hr0] at hrec; exact Bool.noConfusion hrec
            · rw [ho1] at he
              obtain rfl : e1 = e := Except.error.inj he
              rw [hr1] at hrec; exact Bool.noConfusion hrec
            · rw [ho2] at he; exact Except.noConfusion he
          | error e2 =>
            have hR : retry_request outcomes MAX_RETRIES RETRY_DELAY_SECS =
                ⟨Except.error e2, 3, [2, 4]⟩ := by
              by_cases hr2 : is_recoverable_error e2
              · simp [retry_request, retry_request_aux, MAX_RETRIES, RETRY_DELAY_SECS,
                  ho0, hr0, ho1, hr1, ho2, hr2]
              · simp [retry_request, retry_request_aux, MAX_RETRIES, RETRY_DELAY_SECS,
                  ho0, hr0, ho1, hr1, ho2, hr2]
            rw [hR]
            refine ⟨by norm_num, by simp, ?_⟩
            intro k hk hprev e he hrec
            interval_cases k
            · exfalso
              rw [ho0] at he
              obtain rfl : e0 = e := Except.error.inj he
              rw [hr0] at hrec; exact Bool.noConfusion hrec
            · exfalso
              rw [ho1] at he
              obtain rfl : e1 = e := Except.error.inj he
              rw [hr1] at hrec; exact Bool.noConfusion hrec
            · rw [ho2] at he
              obtain rfl : e2 = e := Except.error.inj he
              exact ⟨rfl, rfl⟩
        · have hR : retry_request outcomes MAX_RETRIES RETRY_DELAY_SECS =
              ⟨Except.error e1, 2, [2]⟩ := by
            simp [retry_request, retry_request_aux, MAX_RETRIES, RETRY_DELAY_SECS,
              ho0, hr0, ho1, hr1]
          rw [hR]
          refine ⟨by norm_num, by simp, ?_⟩
          intro k hk hprev e he hrec
          interval_cases k
          · exfalso
            rw [ho0] at he
            obtain rfl : e0 = e := Except.error.inj he
            rw [hr0] at hrec; exact Bool.noConfusion hrec
          · rw [ho1] at he
            obtain rfl : e1 = e := Except.error.inj he
            exact ⟨rfl, rfl⟩
          · exfalso
            obtain ⟨ej, hej, hejrec⟩ := hprev 1 (by omega)
            rw [ho1] at hej
            obtain rfl : e1 = ej := Except.error.inj hej
            exact hr1 hejrec
    · have hR : retry_request outcomes MAX_RETRIES RETRY_DELAY_SECS =
          ⟨Except.error e0, 1, []⟩ := by
        simp [retry_request, retry_request_aux, MAX_RETRIES, RETRY_DELAY_SECS, ho0, hr0]
      rw [hR]
      refine ⟨by norm_num, by simp, ?_⟩
      intro k hk hprev e he hrec
      rcases Nat.eq_zero_or_pos k with rfl | hkpos
      · rw [ho0] at he
        obtain rfl : e0 = e := Except.error.inj he
        exact ⟨rfl, rfl⟩
      · exfalso
        obtain ⟨ej, hej, hejrec⟩ := hprev 0 hkpos
        rw [ho0] at hej
        obtain rfl : e0 = ej := Except.error.inj hej
        exact hr0 hejrec

/-- Witness for C5: a non-recoverable error on the first call is
returned with exactly one attempt made. -/
theorem retry_request_spec_witness :
    (retry_request (fun _ => Except.error ⟨false, false, false⟩ : Nat → Except ReqError Nat)
      MAX_RETRIES RETRY_DELAY_SECS).result = Except.error ⟨false, false, false⟩ ∧
    (retry_request (fun _ => Except.error ⟨false, false, false⟩ : Nat → Except ReqError Nat)
      MAX_RETRIES RETRY_DELAY_SECS).attempts = 0 + 1 :=
  (retry_request_spec Nat (fun _ => Except.error ⟨false, false, false⟩)).2.2 0 (by norm_num)
    (fun j hj => absurd hj (Nat.not_lt_zero j)) ⟨false, false, false⟩ rfl rfl

/-- C6 counterexample: status 204 is neither 200 nor 206, yet it is not
rejected — the check is `!is_success() && status != 206`, and
`is_success` accepts every 2xx, so a 204 range GET proceeds. -/
theorem http_status_claim_cex :
    status_rejected 204 = false ∧
    download_chunk 204 0 [Except.ok [1]] (fun _ => false) = Except.ok ([(0, [1])], 1) ∧
    (204 : Nat) ≠ 200 ∧ (204 : Nat) ≠ 206 :=
  ⟨rfl, rfl, by decide, by decide⟩

/-- C6 amended: a range/sequential GET response is rejected iff its
status is outside 2xx (in particular every 4xx/5xx is rejected, and
206 is accepted, but so is every other 2xx status such as 204); the
HEAD probe never inspects its response status. -/
theorem http_status_amended :
    (∀ status : Nat, status_rejected status = true ↔ ¬(200 ≤ status ∧ status < 300)) ∧
    (∀ status : Nat, 400 ≤ status → status ≤ 599 → status_rejected status = true) ∧
    status_rejected 206 = false ∧
    (∀ (s1 s2 : Nat) (cl : Option Nat) (ar : Option String),
      probe_head ⟨s1, cl, ar⟩ = probe_head ⟨s2, cl, ar⟩) := by
  have key : ∀ status : Nat, status_rejected status = true ↔ ¬(200 ≤ status ∧ status < 300) := by
    intro status
    simp [status_rejected, status_is_success]
    omega
  refine ⟨key, ?_, rfl, fun s1 s2 cl ar => rfl⟩
  intro status h4 h5
  rw [key]
  omega

/-- Witness for C6's amended theorem: 404 is rejected. -/
theorem http_status_amended_witness : status_rejected 404 = true :=
  http_status_amended.2.1 404 (by norm_num) (by norm_num)

theorem write_offsets_append (a b : List (Nat × List Nat)) :
    write_offsets (a ++ b) = write_offsets a ++ write_offsets b := by
  induction a with
  | nil => rfl
  | cons x rest ih =>
    cases x
    simp [write_offsets, ih]

theorem chunk_loop_ok (gate : Nat → Bool) :
    ∀ (stream : List StreamItem) (k pos : Nat) (writes w : List (Nat × List Nat)) (p : Nat),
      chunk_loop gate stream k pos writes = Except.ok (w, p) →
      (∀ i, i < stream.length → gate (k + i) = false) ∧
      (∀ item ∈ stream, ∃ c, item = Except.ok c) ∧
      p = pos + stream_bytes stream ∧
      write_offsets w = write_offsets writes ++ List.range' pos (stream_bytes stream) := by
  intro stream
  induction stream with
  | nil =>
    intro k pos writes w p h
    simp only [chunk_loop, Except.ok.injEq, Prod.mk.injEq] at h
    obtain ⟨rfl, rfl⟩ := h
    exact ⟨fun i hi => absurd hi (by simp), fun it hit => absurd hit (by simp),
      by simp [stream_bytes], by simp [stream_bytes, write_offsets]⟩
  | cons item rest ih =>
    intro k pos writes w p h
    simp only [chunk_loop] at h
    by_cases hg : gate k
    · rw [if_pos hg] at h
      exact absurd h (by simp)
    · rw [if_neg hg] at h
      cases item with
      | error e => exact absurd h (by simp)
      | ok chunk =>
        obtain ⟨h1, h2, h3, h4⟩ := ih (k + 1) (pos + chunk.length) (writes ++ [(pos, chunk)]) w p h
        refine ⟨?_, ?_, ?_, ?_⟩
        · intro i hi
          cases i with
          | zero => simpa using hg
          | succ i' =>
            have := h1 i' (by simpa using hi)
            have harith : k + (i' + 1) = k + 1 + i' := by omega
            rw [harith]
            exact this
        · intro it hit
          rcases List.mem_cons.mp hit with rfl | hit'
          · exact ⟨chunk, rfl⟩
          · exact h2 it hit'
        · simp only [stream_bytes] at *
          omega
        · rw [h4, write_offsets_append]
          simp only [stream_bytes, write_offsets, List.append_nil, List.append_assoc]
          congr 1
          rw [List.range'_append_1, Nat.add_comm]

/-- C7 amended: when `download_chunk` returns `Ok`, it consumed the
whole stream without a stream error and without an observed
cancellation, and it wrote exactly the stream's bytes contiguously
from offset `start`; in particular, whenever the response stream
carries exactly `endpos - start + 1` bytes (a server honouring the
Range header), exactly the offsets `start..endpos` are written, each
once, in order. The `Ok` alone does not bound the byte count — see
the counterexample. -/
theorem download_chunk_ok_spec :
    ∀ (status start endpos : Nat) (stream : List StreamItem) (gate : Nat → Bool)
      (w : List (Nat × List Nat)) (p : Nat),
      download_chunk status start stream gate = Except.ok (w, p) →
      (∀ i, i < stream.length → gate i = false) ∧
      (∀ item ∈ stream, ∃ c, item = Except.ok c) ∧
      p = start + stream_bytes stream ∧
      write_offsets w = List.range' start (stream_bytes stream) ∧
      (stream_bytes stream = endpos - start + 1 →
        write_offsets w = List.range' start (endpos - start + 1)) := by
  intro status start endpos stream gate w p h
  rw [download_chunk] at h
  by_cases hs : status_rejected status
  · rw [if_pos hs] at h
    exact absurd h (by simp)
  · rw [if_neg hs] at h
    obtain ⟨h1, h2, h3, h4⟩ := chunk_loop_ok gate stream 0 start [] w p h
    have h4' : write_offsets w = List.range' start (stream_bytes stream) := by
      simpa [write_offsets] using h4
    exact ⟨fun i hi => by simpa using h1 i hi, h2, h3, h4', fun he => by rw [← he]; exact h4'⟩

/-- Witness for C7's amended theorem: a 2-byte segment [5,6] served by
a stream of exactly 2 bytes writes offsets 5 and 6. -/
theorem download_chunk_ok_spec_witness :
    write_offsets [(5, [9, 9])] = List.range' 5 (6 - 5 + 1) :=
  (download_chunk_ok_spec 206 5 6 [Except.ok [9, 9]] (fun _ => false)
    [(5, [9, 9])] 7 rfl).2.2.2.2 (by decide)

/-- C7 counterexample: over the segment [0,1] (2 bytes expected) an
empty response stream still makes `download_chunk` return `Ok`, with
zero bytes written — the code never checks the byte count. -/
theorem download_chunk_claim_cex :
    download_chunk 206 0 [] (fun _ => false) = Except.ok ([], 0) ∧
    (write_offsets []).length = 0 ∧ (1 : Nat) - 0 + 1 = 2 ∧ (0 : Nat) ≠ 2 :=
  ⟨rfl, rfl, by decide, by decide⟩

theorem seq_loop_cancel (t0 : Nat) :
    ∀ (stream : List StreamItem) (k : Nat),
      (∀ item ∈ stream, ∃ c, item = Except.ok c) →
      k ≤ t0 → t0 < k + stream.length →
      seq_loop (cancel_flag (some t0)) stream k =
        ⟨false, false, [DMsg.error "Cancelado"]⟩ := by
  intro stream
  induction stream with
  | nil =>
    intro k _ hk hlen
    simp only [List.length_nil] at hlen
    omega
  | cons item rest ih =>
    intro k hall hk hlen
    simp only [seq_loop]
    by_cases hg : cancel_flag (some t0) k
    · rw [if_pos hg]
    · rw [if_neg hg]
      have hkt : k < t0 := by
        simp only [cancel_flag, decide_eq_true_eq] at hg
        omega
      obtain ⟨c, rfl⟩ := hall item (List.mem_cons_self item rest)
      exact ih (k + 1) (fun it hit => hall it (List.mem_cons_of_mem _ hit)) (by omega)
        (by simp only [List.length_cons] at hlen; omega)

/-- C8: if the task's `cancelled` flag is set at instant `t0` and a
cancellation check observes it (sequential mode: `t0` falls before the
last per-chunk gate; parallel mode: the post-join re-check reads the
monotone flag as true), the engine deletes the `.part` file, surfaces
`Error("Cancelado")`, and neither renames the file nor emits
`Complete`. -/
theorem cancel_observed_spec :
    (∀ (status : Nat) (stream : List StreamItem) (t0 : Nat),
      status_rejected status = false →
      (∀ item ∈ stream, ∃ c, item = Except.ok c) →
      t0 < stream.length →
      download_sequential_run status stream (cancel_flag (some t0)) =
        ⟨false, false, [DMsg.error "Cancelado"]⟩) ∧
    (∀ worker_ok : List Bool,
      parallel_finish true worker_ok = ⟨false, false, [DMsg.error "Cancelado"]⟩) := by
  constructor
  · intro status stream t0 hs hall ht
    rw [download_sequential_run, if_neg (by simp [hs])]
    exact seq_loop_cancel t0 stream 0 hall (Nat.zero_le _) (by omega)
  · intro worker_ok
    rfl

/-- Witness for C8: a cancellation set before the first chunk of a
sequential download yields the cancel outcome. -/
theorem cancel_observed_spec_witness :
    download_sequential_run 200 [Except.ok [1]] (cancel_flag (some 0)) =
      ⟨false, false, [DMsg.error "Cancelado"]⟩ :=
  cancel_observed_spec.1 200 [Except.ok [1]] 0 rfl
    (fun item hit => ⟨[1], by simpa using hit⟩) (by decide)

theorem pairwise_url_eq {l : List DownloadRecord}
    (hp : List.Pairwise (fun a b => a.url ≠ b.url) l) :
    ∀ x ∈ l, ∀ y ∈ l, x.url = y.url → x = y := by
  induction l with
  | nil =>
    intro x hx
    exact absurd hx (by simp)
  | cons a rest ih =>
    rw [List.pairwise_cons] at hp
    intro x hx y hy hxy
    rcases List.mem_cons.mp hx with rfl | hx'
    · rcases List.mem_cons.mp hy with rfl | hy'
      · rfl
      · exact absurd hxy (hp.1 y hy')
    · rcases List.mem_cons.mp hy with rfl | hy'
      · exact absurd hxy.symm (hp.1 x hx')
      · exact ih hp.2 x hx' y hy' hxy

theorem mem_reconcile_to_resume {saved : List DownloadRecord}
    (hp : List.Pairwise (fun a b => a.url ≠ b.url) saved)
    (r : DownloadRecord) (hr : r ∈ saved) :
    r.url ∈ reconcile_to_resume saved ↔ auto_resume_record r = true := by
  constructor
  · intro h
    obtain ⟨x, hx, hxu⟩ := List.mem_map.mp h
    have hx' := List.mem_filter.mp hx
    have hxr : x = r := pairwise_url_eq hp x hx'.1 r hr hxu
    rw [← hxr]
    exact hx'.2
  · intro h
    exact List.mem_map.mpr ⟨r, List.mem_filter.mpr ⟨hr, h⟩, rfl⟩

/-- C9: under the journal's URL-uniqueness invariant, a loaded record
is marked for auto-resume (its URL collected into `to_resume`, hence
removed from the journal and re-enqueued) iff its status is
`InProgress` and `was_paused` is false; every other record is surfaced
as a passive row and is exactly what remains in the journal after the
removal pass. -/
theorem reconcile_spec :
    ∀ saved : List DownloadRecord,
      List.Pairwise (fun a b => a.url ≠ b.url) saved →
      (∀ r ∈ saved,
        (r.url ∈ reconcile_to_resume saved ↔
          (r.status = DownloadStatus.InProgress ∧ r.was_paused = false))) ∧
      reconcile_remaining saved = reconcile_passive saved ∧
      (∀ r ∈ saved,
        (r ∈ reconcile_passive saved ↔
          ¬(r.status = DownloadStatus.InProgress ∧ r.was_paused = false))) := by
  intro saved hp
  have hauto : ∀ r : DownloadRecord,
      auto_resume_record r = true ↔
        (r.status = DownloadStatus.InProgress ∧ r.was_paused = false) := by
    intro r
    simp [auto_resume_record]
  refine ⟨fun r hr => (mem_reconcile_to_resume hp r hr).trans (hauto r), ?_, ?_⟩
  · rw [reconcile_remaining, reconcile_passive]
    apply List.filter_congr
    intro x hx
    have hc : (reconcile_to_resume saved).contains x.url = auto_resume_record x := by
      by_cases hb : auto_resume_record x = true
      · rw [hb]
        exact List.elem_iff.mpr ((mem_reconcile_to_resume hp x hx).mpr hb)
      · have hb' : auto_resume_record x = false := by
          revert hb; cases auto_resume_record x <;> simp
        rw [hb', Bool.eq_false_iff]
        intro hcontra
        exact hb ((mem_reconcile_to_resume hp x hx).mp (List.elem_iff.mp hcontra))
    rw [hc]
  · intro r hr
    rw [reconcile_passive, List.mem_filter]
    constructor
    · intro h hc
      have hb : auto_resume_record r = true := (hauto r).mpr hc
      rw [hb] at h
      exact Bool.noConfusion h.2
    · intro hc
      refine ⟨hr, ?_⟩
      have hb : auto_resume_record r = false := by
        rw [Bool.eq_false_iff]
        intro hb'
        exact hc ((hauto r).mp hb')
      rw [hb]
      rfl

/-- Witness for C9 on a two-record journal: the journal after the
removal pass is exactly the passive rows. -/
theorem reconcile_spec_witness :
    reconcile_remaining
      [⟨"a", "f1", none, DownloadStatus.InProgress, 0, none, 0, 0, false⟩,
       ⟨"b", "f2", some "p", DownloadStatus.Completed, 0, some 1, 9, 9, false⟩] =
    reconcile_passive
      [⟨"a", "f1", none, DownloadStatus.InProgress, 0, none, 0, 0, false⟩,
       ⟨"b", "f2", some "p", DownloadStatus.Completed, 0, some 1, 9, 9, false⟩] :=
  (reconcile_spec
    [⟨"a", "f1", none, DownloadStatus.InProgress, 0, none, 0, 0, false⟩,
     ⟨"b", "f2", some "p", DownloadStatus.Completed, 0, some 1, 9, 9, false⟩]
    (by decide)).2.1

theorem add_download_records_url_sub :
    ∀ (records : List DownloadRecord) (initial x : DownloadRecord),
      x ∈ add_download_records records initial →
      x.url = initial.url ∨ ∃ y ∈ records, x.url = y.url := by
  intro records
  induction records with
  | nil =>
    intro initial x hx
    simp only [add_download_records, List.mem_singleton] at hx
    exact Or.inl (by rw [hx])
  | cons r rest ih =>
    intro initial x hx
    rw [add_download_records] at hx
    by_cases hu : r.url = initial.url
    · rw [if_pos hu] at hx
      rcases List.mem_cons.mp hx with rfl | hx'
      · exact Or.inr ⟨r, List.mem_cons_self r rest, rfl⟩
      · exact Or.inr ⟨x, List.mem_cons_of_mem r hx', rfl⟩
    · rw [if_neg hu] at hx
      rcases List.mem_cons.mp hx with rfl | hx'
      · exact Or.inr ⟨x, List.mem_cons_self x rest, rfl⟩
      · rcases ih initial x hx' with h | ⟨y, hy, hxy⟩
        · exact Or.inl h
        · exact Or.inr ⟨y, List.mem_cons_of_mem r hy, hxy⟩

theorem add_download_records_pairwise :
    ∀ (records : List DownloadRecord) (initial : DownloadRecord),
      List.Pairwise (fun a b => a.url ≠ b.url) records →
      List.Pairwise (fun a b => a.url ≠ b.url) (add_download_records records initial) := by
  intro records
  induction records with
  | nil =>
    intro initial _
    exact List.pairwise_singleton _ _
  | cons r rest ih =>
    intro initial hp
    rw [List.pairwise_cons] at hp
    rw [add_download_records]
    by_cases hu : r.url = initial.url
    · rw [if_pos hu]
      exact List.pairwise_cons.mpr ⟨fun y hy => hp.1 y hy, hp.2⟩
    · rw [if_neg hu]
      refine List.pairwise_cons.mpr ⟨?_, ih initial hp.2⟩
      intro y hy
      rcases add_download_records_url_sub rest initial y hy with h | ⟨z, hz, hyz⟩
      · rw [h]
        exact fun hc => hu hc
      · rw [hyz]
        exact hp.1 z hz

theorem map_update_id (initial : DownloadRecord) :
    ∀ l : List DownloadRecord, (∀ x ∈ l, x.url ≠ initial.url) →
      l.map (fun x => if x.url = initial.url then update_existing_record x else x) = l := by
  intro l
  induction l with
  | nil => intro _; rfl
  | cons a t iht =>
    intro hl
    simp only [List.map]
    rw [if_neg (hl a (List.mem_cons_self a t)),
      iht (fun x hx => hl x (List.mem_cons_of_mem a hx))]

theorem add_download_records_dup :
    ∀ (records : List DownloadRecord) (initial : DownloadRecord),
      List.Pairwise (fun a b => a.url ≠ b.url) records →
      (∃ r ∈ records, r.url = initial.url) →
      add_download_records records initial =
        records.map (fun x => if x.url = initial.url then update_existing_record x else x) := by
  intro records
  induction records with
  | nil =>
    intro initial _ hex
    exact absurd hex (by simp)
  | cons r rest ih =>
    intro initial hp hex
    rw [List.pairwise_cons] at hp
    rw [add_download_records, List.map]
    by_cases hu : r.url = initial.url
    · rw [if_pos hu, if_pos hu]
      congr 1
      exact (map_update_id initial rest
        (fun x hx hc => (hp.1 x hx) (hu.trans hc.symm))).symm
    · rw [if_neg hu, if_neg hu]
      congr 1
      apply ih initial hp.2
      rcases hex with ⟨y, hy, hyu⟩
      rcases List.mem_cons.mp hy with rfl | hy'
      · exact absurd hyu hu
      · exact ⟨y, hy', hyu⟩

/-- C10: URL uniqueness is preserved by `add_download`'s record
mutation, by the delete handler's retain, and by the reconciliation's
retain; and when a record with the new URL already exists,
`add_download` updates it in place (status `InProgress`,
`date_completed` cleared, `was_paused` false) and appends nothing — the
journal's URL list is unchanged. -/
theorem url_unique_invariant :
    ∀ (records : List DownloadRecord) (initial : DownloadRecord),
      List.Pairwise (fun a b => a.url ≠ b.url) records →
      List.Pairwise (fun a b => a.url ≠ b.url) (add_download_records records initial) ∧
      (∀ url, List.Pairwise (fun a b => a.url ≠ b.url) (delete_record records url)) ∧
      List.Pairwise (fun a b => a.url ≠ b.url) (reconcile_remaining records) ∧
      ((∃ r ∈ records, r.url = initial.url) →
        add_download_records records initial =
          records.map (fun x => if x.url = initial.url then update_existing_record x else x) ∧
        (add_download_records records initial).map (fun r => r.url) =
          records.map (fun r => r.url)) := by
  intro records initial hp
  refine ⟨add_download_records_pairwise records initial hp, ?_, ?_, ?_⟩
  · intro url
    exact List.Pairwise.sublist (List.filter_sublist records) hp
  · exact List.Pairwise.sublist (List.filter_sublist records) hp
  · intro hex
    have heq := add_download_records_dup records initial hp hex
    refine ⟨heq, ?_⟩
    rw [heq, List.map_map]
    apply List.map_congr_left
    intro x _
    by_cases hxu : x.url = initial.url
    · simp [Function.comp, hxu, update_existing_record]
    · simp [Function.comp, hxu]

/-- Witness for C10: re-adding an existing URL updates the record in
place instead of appending a duplicate. -/
theorem url_unique_invariant_witness :
    add_download_records
      [⟨"u", "f", none, DownloadStatus.Completed, 1, some 2, 5, 5, true⟩]
      ⟨"u", "g", none, DownloadStatus.InProgress, 3, none, 0, 0, false⟩ =
    [⟨"u", "f", none, DownloadStatus.InProgress, 1, none, 5, 5, false⟩] := by
  have h := (url_unique_invariant
      [⟨"u", "f", none, DownloadStatus.Completed, 1, some 2, 5, 5, true⟩]
      ⟨"u", "g", none, DownloadStatus.InProgress, 3, none, 0, 0, false⟩
      (List.pairwise_singleton _ _)).2.2.2
      ⟨⟨"u", "f", none, DownloadStatus.Completed, 1, some 2, 5, 5, true⟩,
        List.mem_singleton.mpr rfl, rfl⟩
  rw [h.1]
  rfl

end Keepers
